/-
  Verification of the BackgroundPython clip pipeline.

  Shallow embedding of the duration-fitting, filtering, selection,
  normalization, trimming and batch-scheduling logic of the repository
  (src/video_processor.py, src/video_processor_enhanced.py,
  src/pexels_api.py, src/batch_processor.py), together with proofs
  settling the behavioural claims about those components.

  Clip durations (floats probed by ffprobe in the source) are modelled
  as rationals; Python ints are modelled as Int (or Nat where the source
  value is always a nonnegative count).
-/
import Mathlib

/-- A downloaded clip: an identifier (standing for the file path) and its
probed duration in seconds (`get_video_duration`). -/
structure Clip where
  id : Nat
  duration : ℚ
deriving DecidableEq, Repr

/-- `calculate_total_duration` (video_processor.py:429): sum of the probed
durations of a list of clips. -/
def calculate_total_duration (clips : List Clip) : ℚ :=
  (clips.map Clip.duration).sum

/-- `VideoProcessor.extend_clips_to_duration` (video_processor.py:440):
if the clip list is empty return it; if the total duration is zero, or
already at least the target, return the list unchanged; otherwise repeat
the whole ordered list `ceil(target / total)` times. -/
def extend_clips_to_duration (clips : List Clip) (target_duration : ℕ) : List Clip :=
  if clips = [] then []
  else
    let total := calculate_total_duration clips
    if total = 0 then clips
    else if (target_duration : ℚ) ≤ total then clips
    else
      let repetitions := (⌈(target_duration : ℚ) / total⌉).toNat
      (List.replicate repetitions clips).flatten

/-- The `(path, duration, weight)` triples built by
`EnhancedVideoProcessor.intelligent_duration_extension`
(video_processor_enhanced.py:38-44): clips of duration at least
`min_clip_duration`, with weight `min duration 10`. -/
def clip_weights (clips : List Clip) (min_clip_duration : ℚ) : List (Clip × ℚ × ℚ) :=
  clips.filterMap fun c =>
    if min_clip_duration ≤ c.duration then some (c, c.duration, min c.duration 10) else none

/-- The `while current_total < target` loop of
`intelligent_duration_extension` (video_processor_enhanced.py:57-71),
returning the list of appended clips.  Each iteration appends the head
clip; the head is removed (and the loop continues) when
`use_duration >= clip_duration`; otherwise `use_duration` equals the
remaining need, `current_total` becomes exactly `target`, and the loop
exits at its next condition check, so the partial-use branch returns
directly. -/
def extend_loop : List (Clip × ℚ × ℚ) → ℚ → ℚ → List Clip
  | [], _, _ => []
  | w :: rest, current_total, target =>
    if current_total < target then
      let use_duration := min w.2.1 (target - current_total)
      if w.2.1 ≤ use_duration then
        w.1 :: extend_loop rest (current_total + use_duration) target
      else
        [w.1]
    else []

/-- `EnhancedVideoProcessor.intelligent_duration_extension`
(video_processor_enhanced.py:19-73): weighted-extend duration policy.
Python's stable descending sort by weight is modelled by
`List.insertionSort` with the reflexive-total relation
"weight at least as large". -/
def intelligent_duration_extension (clips : List Clip) (target_duration : ℕ)
    (min_clip_duration : ℚ) : List Clip :=
  if clips = [] then []
  else
    let total_available := calculate_total_duration clips
    if (target_duration : ℚ) ≤ total_available then clips
    else
      let weights := clip_weights clips min_clip_duration
      if weights = [] then clips
      else
        let sorted := weights.insertionSort fun a b => b.2.2 ≤ a.2.2
        clips ++ extend_loop sorted total_available (target_duration : ℚ)

/-- `VideoProcessor.normalize_videos` (video_processor.py:133-156) at the
level of which clips survive: the per-clip success of `normalize_video`
(an external ffmpeg invocation) is abstracted as the oracle `ok`; the
loop keeps exactly the clips whose normalization succeeds, in order. -/
def normalize_videos (ok : Clip → Bool) : List Clip → List Clip
  | [] => []
  | c :: rest =>
    if ok c then c :: normalize_videos ok rest else normalize_videos ok rest

/-- Output duration of `VideoProcessor.trim_video_to_duration`
(video_processor.py:483-517): `ffmpeg -t target` cuts the input stream
from time 0 to at most `target` seconds, so the output lasts
`min inputDuration target`. -/
def trim_video_to_duration (input_duration : ℚ) (target_duration : ℕ) : ℚ :=
  min input_duration (target_duration : ℚ)

/-- The trim decision of `VideoProcessor.process_videos`
(video_processor.py:556-566): trim exactly when the concatenated
duration strictly exceeds the target. -/
def trim_invoked (concat_duration : ℚ) (target_duration : ℕ) : Bool :=
  decide ((target_duration : ℚ) < concat_duration)

/-- Duration of the final artifact written by `process_videos`
(video_processor.py:556-566): the concatenation is trimmed when longer
than the target, otherwise copied unchanged (`shutil.copy2`). -/
def pipeline_final_duration (concat_duration : ℚ) (target_duration : ℕ) : ℚ :=
  if (target_duration : ℚ) < concat_duration then
    trim_video_to_duration concat_duration target_duration
  else concat_duration

/-- Duration-level model of the `VideoProcessor.process_videos` pipeline
(video_processor.py:519-583): extend, normalize (dropping clips whose
normalization fails; `none` when no clip survives, the stage failure at
lines 534-536), concatenate (durations add), then trim or copy. -/
def process_videos_duration (ok : Clip → Bool) (clips : List Clip)
    (target_duration : ℕ) : Option ℚ :=
  let extended := extend_clips_to_duration clips target_duration
  let normalized := normalize_videos ok extended
  if normalized = [] then none
  else some (pipeline_final_duration (calculate_total_duration normalized) target_duration)

/-- A Pexels search result entry: the metadata fields the selection code
reads (`id`, `width`, `height`, `duration`, pexels_api.py). Durations and
dimensions in the API payload are integers. -/
structure PexelsVideo where
  id : ℤ
  width : ℤ
  height : ℤ
  duration : ℤ
deriving DecidableEq, Repr

/-- `PexelsAPI.filter_videos_by_duration` (pexels_api.py:67-76): keep the
videos whose duration lies in `[min_duration, max_duration]`. -/
def filter_videos_by_duration (videos : List PexelsVideo)
    (min_duration max_duration : ℤ) : List PexelsVideo :=
  videos.filter fun v =>
    decide (min_duration ≤ v.duration) && decide (v.duration ≤ max_duration)

/-- The widened duration filter used by `search_and_download_videos` when
`target_duration > 600` (pexels_api.py:323-328): range
`[max 5 (min-5), min 60 (max+15)]`. -/
def widened_duration_filter (videos : List PexelsVideo)
    (min_clip_duration max_clip_duration : ℤ) : List PexelsVideo :=
  filter_videos_by_duration videos (max 5 (min_clip_duration - 5))
    (min 60 (max_clip_duration + 15))

/-- The duration-filter branch of `search_and_download_videos`
(pexels_api.py:322-330): widened range for long-form targets
(over 600 s), base range otherwise. -/
def duration_filter_for_target (videos : List PexelsVideo) (target_duration : ℕ)
    (min_clip_duration max_clip_duration : ℤ) : List PexelsVideo :=
  if 600 < target_duration then
    widened_duration_filter videos min_clip_duration max_clip_duration
  else
    filter_videos_by_duration videos min_clip_duration max_clip_duration

/-- `PexelsAPI.calculate_optimal_clip_count` (pexels_api.py:161-173):
`min (max (int(target / avg) + 2) 5) max_clips` where
`avg = (min + max) / 2` and Python's `int()` truncates the positive
quotient, i.e. takes the floor. -/
def calculate_optimal_clip_count (target_duration min_clip_duration
    max_clip_duration max_clips : ℤ) : ℤ :=
  let avg_clip_duration : ℚ := ((min_clip_duration : ℚ) + (max_clip_duration : ℚ)) / 2
  let estimated_clips_needed := ⌊(target_duration : ℚ) / avg_clip_duration⌋ + 2
  min (max estimated_clips_needed 5) max_clips

/-- The clip-count formula as the specification words it: a *ceiling*
of `target / averageClipDuration` plus the buffer, clamped to
`[5, maxClipCount]`.  Stated from the spec for comparison with
`calculate_optimal_clip_count`, which the source computes with a
truncating `int()`. -/
def claimed_optimal_clip_count (target_duration min_clip_duration
    max_clip_duration max_clips : ℤ) : ℤ :=
  let avg_clip_duration : ℚ := ((min_clip_duration : ℚ) + (max_clip_duration : ℚ)) / 2
  let estimated_clips_needed := ⌈(target_duration : ℚ) / avg_clip_duration⌉ + 2
  min (max estimated_clips_needed 5) max_clips

/-- The truncation step of `search_and_download_videos`
(pexels_api.py:350-352): `clips_needed = min(optimal, len(unique))`;
`selected = unique[:clips_needed]`. -/
def select_clips (unique_videos : List PexelsVideo) (optimal_clip_count : ℤ) :
    List PexelsVideo :=
  unique_videos.take (min optimal_clip_count (unique_videos.length : ℤ)).toNat

/-- The deduplication loop of `search_and_download_videos`
(pexels_api.py:339-348): scan the list keeping each video whose id has
not been seen, accumulating seen ids. -/
def dedup_by_id : List PexelsVideo → List ℤ → List PexelsVideo
  | [], _ => []
  | v :: rest, seen_ids =>
    if v.id ∈ seen_ids then dedup_by_id rest seen_ids
    else v :: dedup_by_id rest (v.id :: seen_ids)

/-- Job status values used by batch_processor.py. -/
inductive JobStatus
  | queued
  | processing
  | completed
  | failed
deriving DecidableEq, Repr

/-- Rank of a status along the forward chain
queued → processing → {completed, failed}. -/
def statusRank : JobStatus → ℕ
  | .queued => 0
  | .processing => 1
  | .completed => 2
  | .failed => 2

/-- One observable status change moves forward: unchanged, or strictly
up the chain (the two terminal states are not reachable from each
other). -/
def statusStep (a b : JobStatus) : Prop :=
  a = b ∨ statusRank a < statusRank b

/-- State of a `BatchProcessor` (batch_processor.py): the FIFO
`processing_queue` (job ids in insertion order), the `results` mapping
(a Python dict: insertion-ordered association list with unique keys,
modelled by in-place update), and the `is_running` flag. -/
structure BatchState where
  queue : List String
  results : List (String × JobStatus)
  is_running : Bool
deriving DecidableEq, Repr

/-- Python-dict write `results[k] = v`: update the existing entry for
`k` in place, or append a new entry. -/
def setEntry (k : String) (v : JobStatus) : List (String × JobStatus) →
    List (String × JobStatus)
  | [] => [(k, v)]
  | e :: rest => if e.1 = k then (k, v) :: rest else e :: setEntry k v rest

/-- Python-dict read `results.get(k)`: the value of the first (and, for
states built by the operations below, only) entry with key `k`. -/
def lookupStatus (k : String) : List (String × JobStatus) → Option JobStatus
  | [] => none
  | e :: rest => if e.1 = k then some e.2 else lookupStatus k rest

/-- `BatchProcessor.add_job` (batch_processor.py:25-42): build a job
record with status `queued`, put it on the queue and store it in
`results` under its id (overwriting any existing entry for that id). -/
def add_job (job_id : String) (s : BatchState) : BatchState :=
  { s with queue := s.queue ++ [job_id],
           results := setEntry job_id .queued s.results }

/-- Result value of `process_batch`: the two error dictionaries of
batch_processor.py:46-47 and 60-61, or the results dict on completion. -/
inductive BatchResult
  | alreadyRunning
  | noJobs
  | finished
deriving DecidableEq, Repr

/-- `BatchProcessor._process_single_job` (batch_processor.py:85-109) at
the status level: the job ends `completed` when `process_with_preset`
succeeds and `failed` otherwise (also on an exception); the per-job
success is abstracted as the oracle `ok`. -/
def process_single_job_status (ok : String → Bool) (job_id : String) : JobStatus :=
  if ok job_id then .completed else .failed

/-- `BatchProcessor.process_batch` (batch_processor.py:44-83), run to
completion: reject when `is_running`; otherwise set `is_running`, drain
the queue, and — faithfully to the source — return the "No jobs to
process" error *without clearing `is_running`* when the queue was empty
(lines 60-61 return before line 82 runs); otherwise record each job's
terminal status and clear `is_running`. -/
def process_batch (ok : String → Bool) (s : BatchState) : BatchState × BatchResult :=
  if s.is_running then (s, .alreadyRunning)
  else
    let jobs := s.queue
    let drained : BatchState := { s with queue := [], is_running := true }
    if jobs = [] then (drained, .noJobs)
    else
      let results := jobs.foldl
        (fun r job_id => setEntry job_id (process_single_job_status ok job_id) r)
        drained.results
      ({ drained with results := results, is_running := false }, .finished)

/-- `BatchProcessor.clear_completed_jobs` (batch_processor.py:119-124):
keep exactly the entries whose status is neither `completed` nor
`failed`. -/
def clear_completed_jobs (s : BatchState) : BatchState :=
  { s with results := s.results.filter fun e =>
      !(decide (e.2 = JobStatus.completed) || decide (e.2 = JobStatus.failed)) }

/-- The batch-processor operations a caller can perform. -/
inductive BatchOp
  | add (job_id : String)
  | runBatch (ok : String → Bool)
  | clearCompleted

/-- Effect of one batch-processor operation on the state. -/
def batchStep (s : BatchState) : BatchOp → BatchState
  | .add job_id => add_job job_id s
  | .runBatch ok => (process_batch ok s).1
  | .clearCompleted => clear_completed_jobs s

/-- A target resolution, `"WxH"` in the source. -/
structure Resolution where
  width : ℕ
  height : ℕ
deriving DecidableEq, Repr

/-- `VideoProcessor.flip_resolution_for_vertical`
(video_processor.py:79-87): whenever the aspect ratio is `"vertical"`,
swap width and height of the target resolution; otherwise return it
unchanged. -/
def flip_resolution_for_vertical (target_resolution : Resolution)
    (aspect_ratio : String) : Resolution :=
  if aspect_ratio = "vertical" then
    { width := target_resolution.height, height := target_resolution.width }
  else target_resolution

/-- The preset fields consumed by `process_with_preset`. -/
structure Preset where
  target_resolution : Resolution
  target_fps : ℕ
  aspect_ratio : String
deriving DecidableEq, Repr

/-- `EnhancedVideoProcessor.create_processing_preset`
(video_processor_enhanced.py:75-104): the four named presets, with
`presentation` as the default for unknown names. -/
def create_processing_preset (preset_name : String) : Preset :=
  if preset_name = "social_media" then ⟨⟨1080, 1920⟩, 30, "vertical"⟩
  else if preset_name = "presentation" then ⟨⟨1920, 1080⟩, 30, "horizontal"⟩
  else if preset_name = "mobile" then ⟨⟨720, 1280⟩, 24, "vertical"⟩
  else if preset_name = "high_quality" then ⟨⟨1920, 1080⟩, 60, "horizontal"⟩
  else ⟨⟨1920, 1080⟩, 30, "horizontal"⟩

/-- The resolution every clip is normalized to by
`EnhancedVideoProcessor.process_with_preset`
(video_processor_enhanced.py:137-149): the preset's resolution and
aspect ratio are passed to `process_videos_with_progress`, whose
`normalize_video` calls apply `flip_resolution_for_vertical`
(video_processor.py:94). -/
def process_with_preset_resolution (preset_name : String) : Resolution :=
  let preset := create_processing_preset preset_name
  flip_resolution_for_vertical preset.target_resolution preset.aspect_ratio

/-! ## Helper lemmas -/

theorem calculate_total_duration_flatten_replicate (clips : List Clip) (n : ℕ) :
    calculate_total_duration ((List.replicate n clips).flatten)
      = n * calculate_total_duration clips := by
  induction n with
  | zero => simp [calculate_total_duration]
  | succ m ih =>
    simp only [List.replicate_succ, List.flatten_cons]
    unfold calculate_total_duration at ih ⊢
    rw [List.map_append, List.sum_append, ih]
    push_cast
    ring

theorem calculate_total_duration_pos (clips : List Clip)
    (hnn : ∀ c ∈ clips, 0 ≤ c.duration) (hpos : ∃ c ∈ clips, 0 < c.duration) :
    0 < calculate_total_duration clips := by
  obtain ⟨c, hc, hcpos⟩ := hpos
  have hle : c.duration ≤ calculate_total_duration clips := by
    apply List.single_le_sum
    · intro x hx
      obtain ⟨d, hd, rfl⟩ := List.mem_map.mp hx
      exact hnn d hd
    · exact List.mem_map.mpr ⟨c, hc, rfl⟩
  exact lt_of_lt_of_le hcpos hle

/-- C1 (amended): under the repeat-whole policy, for every non-empty clip
list with nonnegative probed durations, at least one of them positive,
and every positive target, `extend_clips_to_duration` returns a sequence
whose aggregate duration is at least the target. -/
theorem extend_clips_reaches_target (clips : List Clip) (target_duration : ℕ)
    (hnn : ∀ c ∈ clips, 0 ≤ c.duration)
    (hpos : ∃ c ∈ clips, 0 < c.duration)
    (htgt : 0 < target_duration) :
    (target_duration : ℚ)
      ≤ calculate_total_duration (extend_clips_to_duration clips target_duration) := by
  have hne : clips ≠ [] := by
    obtain ⟨c, hc, _⟩ := hpos
    exact List.ne_nil_of_mem hc
  have htot : 0 < calculate_total_duration clips :=
    calculate_total_duration_pos clips hnn hpos
  unfold extend_clips_to_duration
  rw [if_neg hne, if_neg (ne_of_gt htot)]
  by_cases hcmp : (target_duration : ℚ) ≤ calculate_total_duration clips
  · rw [if_pos hcmp]
    exact hcmp
  · rw [if_neg hcmp]
    set total := calculate_total_duration clips with htotdef
    have hceil_nonneg : 0 ≤ ⌈(target_duration : ℚ) / total⌉ := by
      apply Int.ceil_nonneg
      positivity
    rw [calculate_total_duration_flatten_replicate]
    have hcast : ((⌈(target_duration : ℚ) / total⌉.toNat : ℕ) : ℚ)
        = ((⌈(target_duration : ℚ) / total⌉ : ℤ) : ℚ) := by
      exact_mod_cast congrArg (Int.cast : ℤ → ℚ) (Int.toNat_of_nonneg hceil_nonneg)
    rw [hcast]
    have hdivle : (target_duration : ℚ) / total ≤ (⌈(target_duration : ℚ) / total⌉ : ℚ) :=
      Int.le_ceil _
    calc (target_duration : ℚ)
        = ((target_duration : ℚ) / total) * total := by field_simp
      _ ≤ (⌈(target_duration : ℚ) / total⌉ : ℚ) * total :=
          mul_le_mul_of_nonneg_right hdivle (le_of_lt htot)

/-- Witness for `extend_clips_reaches_target`: a single 2-second clip and
a 5-second target; the fitted sequence lasts 6 seconds. -/
theorem extend_clips_reaches_target_witness :
    (∀ c ∈ [Clip.mk 0 2], 0 ≤ c.duration) ∧ (∃ c ∈ [Clip.mk 0 2], 0 < c.duration) ∧
    0 < 5 ∧
    (5 : ℚ) ≤ calculate_total_duration (extend_clips_to_duration [Clip.mk 0 2] 5) :=
  ⟨by decide, by decide, by decide,
    extend_clips_reaches_target [Clip.mk 0 2] 5 (by decide) (by decide) (by decide)⟩

/-- Counterexample to C1 as stated: one 5-second clip, target 100 s,
the code-default `min_clip_duration = 3`.  The weighted-extend policy
(`intelligent_duration_extension`) appends the clip once and stops when
its candidate pool is exhausted, returning a 10-second aggregate, far
short of the 100-second target even though a positive-duration clip was
supplied. -/
theorem intelligent_extension_misses_target :
    ([Clip.mk 0 5] ≠ ([] : List Clip)) ∧ (0 : ℚ) < (Clip.mk 0 5).duration ∧ (0 : ℕ) < 100 ∧
    calculate_total_duration (intelligent_duration_extension [Clip.mk 0 5] 100 3) = 10 ∧
    ¬ ((100 : ℚ) ≤ calculate_total_duration (intelligent_duration_extension [Clip.mk 0 5] 100 3)) := by
  have hval : calculate_total_duration (intelligent_duration_extension [Clip.mk 0 5] 100 3) = 10 := by
    norm_num [intelligent_duration_extension, calculate_total_duration, clip_weights,
      List.insertionSort, List.orderedInsert, extend_loop, List.filterMap]
  refine ⟨by decide, by decide, by decide, hval, ?_⟩
  rw [hval]
  norm_num

/-- Counterexample to C3 as stated: for three 10-second clips and a
25-second target, the code finds the available 30 s already sufficient
(`total_available_duration >= target_duration`, video_processor.py:456)
and returns the clips unchanged — 3 clips, not the 6 clips of two full
repetitions claimed. -/
theorem repeat_whole_scenario_no_repetition :
    (extend_clips_to_duration [Clip.mk 0 10, Clip.mk 1 10, Clip.mk 2 10] 25).length ≠ 6 := by
  have h : extend_clips_to_duration [Clip.mk 0 10, Clip.mk 1 10, Clip.mk 2 10] 25
      = [Clip.mk 0 10, Clip.mk 1 10, Clip.mk 2 10] := by
    norm_num [extend_clips_to_duration, calculate_total_duration]
  rw [h]
  decide

/-- C3 (amended): for clips of durations [10,10,10] s and target 25 s the
repeat-whole step returns the sequence unchanged (3 clips, 30 s
aggregate) because the available duration already reaches the target;
the trimming step then cuts the 30-second concatenation to exactly
25 s. -/
theorem repeat_whole_scenario_actual :
    extend_clips_to_duration [Clip.mk 0 10, Clip.mk 1 10, Clip.mk 2 10] 25
      = [Clip.mk 0 10, Clip.mk 1 10, Clip.mk 2 10] ∧
    calculate_total_duration (extend_clips_to_duration [Clip.mk 0 10, Clip.mk 1 10, Clip.mk 2 10] 25) = 30 ∧
    process_videos_duration (fun _ => true) [Clip.mk 0 10, Clip.mk 1 10, Clip.mk 2 10] 25
      = some 25 := by
  have h : extend_clips_to_duration [Clip.mk 0 10, Clip.mk 1 10, Clip.mk 2 10] 25
      = [Clip.mk 0 10, Clip.mk 1 10, Clip.mk 2 10] := by
    norm_num [extend_clips_to_duration, calculate_total_duration]
  refine ⟨h, by rw [h]; norm_num [calculate_total_duration], ?_⟩
  have hnorm : normalize_videos (fun _ => true) [Clip.mk 0 10, Clip.mk 1 10, Clip.mk 2 10]
      = [Clip.mk 0 10, Clip.mk 1 10, Clip.mk 2 10] := by
    norm_num [normalize_videos]
  simp only [process_videos_duration, h, hnorm]
  rw [if_neg (by decide : ¬([Clip.mk 0 10, Clip.mk 1 10, Clip.mk 2 10] : List Clip) = [])]
  norm_num [calculate_total_duration, pipeline_final_duration, trim_video_to_duration]

/-- C6: the pipeline invokes the trim operation iff the concatenated
duration strictly exceeds the target; when it does not, the final output
is the concatenated stream unchanged; and the final duration never
exceeds the concatenated duration (no padding is ever added). -/
theorem trim_iff_concat_exceeds_target (concat_duration : ℚ) (target_duration : ℕ) :
    (trim_invoked concat_duration target_duration = true
        ↔ (target_duration : ℚ) < concat_duration) ∧
    (concat_duration ≤ (target_duration : ℚ) →
        pipeline_final_duration concat_duration target_duration = concat_duration) ∧
    pipeline_final_duration concat_duration target_duration ≤ concat_duration := by
  refine ⟨by simp [trim_invoked], ?_, ?_⟩
  · intro h
    rw [pipeline_final_duration, if_neg (not_lt.mpr h)]
  · rw [pipeline_final_duration]
    split
    · exact min_le_left _ _
    · exact le_refl _

/-- Witness for `trim_iff_concat_exceeds_target`: a 30-second
concatenation is trimmed for a 25-second target, and a 20-second
concatenation passes through a 25-second target unchanged. -/
theorem trim_iff_concat_exceeds_target_witness :
    trim_invoked 30 25 = true ∧ pipeline_final_duration 20 25 = 20 :=
  ⟨(trim_iff_concat_exceeds_target 30 25).1.mpr (by norm_num),
   (trim_iff_concat_exceeds_target 20 25).2.1 (by norm_num)⟩

theorem normalize_videos_eq_filter (ok : Clip → Bool) (clips : List Clip) :
    normalize_videos ok clips = clips.filter ok := by
  induction clips with
  | nil => rfl
  | cons c rest ih =>
    cases h : ok c <;> simp [normalize_videos, List.filter_cons, h, ih]

/-- C7: a clip whose normalization fails is dropped while every clip
whose normalization succeeds is kept (in order), and the pipeline's
normalization stage fails (empty survivor list, video_processor.py:534)
exactly when no clip at all normalizes successfully. -/
theorem normalization_failure_absorbed (ok : Clip → Bool) (clips : List Clip) :
    (∀ c ∈ clips, ok c = true → c ∈ normalize_videos ok clips) ∧
    (∀ c ∈ normalize_videos ok clips, c ∈ clips ∧ ok c = true) ∧
    (normalize_videos ok clips = [] ↔ ∀ c ∈ clips, ok c = false) := by
  simp only [normalize_videos_eq_filter]
  refine ⟨?_, ?_, ?_⟩
  · intro c hc hok
    exact List.mem_filter.mpr ⟨hc, hok⟩
  · intro c hc
    exact List.mem_filter.mp hc
  · rw [List.filter_eq_nil_iff]
    constructor
    · intro h c hc
      exact Bool.eq_false_iff.mpr (h c hc)
    · intro h c hc
      simp [h c hc]

/-- Witness for `normalization_failure_absorbed`: with three clips of
which only the middle one fails, the first clip survives, the failed one
is dropped, and the stage does not fail. -/
theorem normalization_failure_absorbed_witness :
    Clip.mk 0 1 ∈ normalize_videos (fun c => decide (c.id ≠ 1))
      [Clip.mk 0 1, Clip.mk 1 1, Clip.mk 2 1] ∧
    ¬ (normalize_videos (fun c => decide (c.id ≠ 1))
      [Clip.mk 0 1, Clip.mk 1 1, Clip.mk 2 1] = []) :=
  ⟨(normalization_failure_absorbed (fun c => decide (c.id ≠ 1))
      [Clip.mk 0 1, Clip.mk 1 1, Clip.mk 2 1]).1 (Clip.mk 0 1) (by decide) (by decide),
   fun h => by
    have := ((normalization_failure_absorbed (fun c => decide (c.id ≠ 1))
      [Clip.mk 0 1, Clip.mk 1 1, Clip.mk 2 1]).2.2.mp h) (Clip.mk 0 1) (by decide)
    simp at this⟩

theorem dedup_by_id_sublist (l : List PexelsVideo) :
    ∀ seen, (dedup_by_id l seen).Sublist l := by
  induction l with
  | nil => intro seen; simp [dedup_by_id]
  | cons v rest ih =>
    intro seen
    by_cases h : v.id ∈ seen
    · simp only [dedup_by_id, if_pos h]
      exact (ih seen).cons v
    · simp only [dedup_by_id, if_neg h]
      exact (ih (v.id :: seen)).cons₂ v

theorem dedup_by_id_id_not_seen (l : List PexelsVideo) :
    ∀ seen, ∀ v ∈ dedup_by_id l seen, v.id ∉ seen := by
  induction l with
  | nil => intro seen v hv; simp [dedup_by_id] at hv
  | cons w rest ih =>
    intro seen v hv
    by_cases h : w.id ∈ seen
    · rw [dedup_by_id, if_pos h] at hv
      exact ih seen v hv
    · rw [dedup_by_id, if_neg h] at hv
      rcases List.mem_cons.mp hv with rfl | hv'
      · exact h
      · have hnotin := ih (w.id :: seen) v hv'
        intro hmem
        exact hnotin (List.mem_cons_of_mem _ hmem)

theorem dedup_by_id_nodup_ids (l : List PexelsVideo) :
    ∀ seen, ((dedup_by_id l seen).map PexelsVideo.id).Nodup := by
  induction l with
  | nil => intro seen; simp [dedup_by_id]
  | cons w rest ih =>
    intro seen
    by_cases h : w.id ∈ seen
    · simp only [dedup_by_id, if_pos h]
      exact ih seen
    · simp only [dedup_by_id, if_neg h, List.map_cons, List.nodup_cons]
      refine ⟨?_, ih _⟩
      intro hmem
      obtain ⟨v, hv, hvid⟩ := List.mem_map.mp hmem
      have hvnot := dedup_by_id_id_not_seen rest (w.id :: seen) v hv
      rw [hvid] at hvnot
      exact hvnot (List.mem_cons_self _ _)

theorem dedup_by_id_find_first (l : List PexelsVideo) :
    ∀ seen, ∀ i : ℤ, i ∉ seen →
      (dedup_by_id l seen).find? (fun w => w.id == i) = l.find? (fun w => w.id == i) := by
  induction l with
  | nil => intro seen i _; simp [dedup_by_id]
  | cons w rest ih =>
    intro seen i hi
    by_cases h : w.id ∈ seen
    · have hne : (w.id == i) = false := by
        apply beq_eq_false_iff_ne.mpr
        intro he
        rw [he] at h
        exact hi h
      rw [dedup_by_id, if_pos h, List.find?_cons_of_neg _ (by simp [hne])]
      exact ih seen i hi
    · by_cases he : w.id = i
      · rw [dedup_by_id, if_neg h,
          List.find?_cons_of_pos _ (by simp [he]),
          List.find?_cons_of_pos _ (by simp [he])]
      · have hne : (w.id == i) = false := beq_eq_false_iff_ne.mpr he
        rw [dedup_by_id, if_neg h,
          List.find?_cons_of_neg _ (by simp [hne]),
          List.find?_cons_of_neg _ (by simp [hne])]
        apply ih (w.id :: seen) i
        intro hmem
        rcases List.mem_cons.mp hmem with h1 | h2
        · exact he h1.symm
        · exact hi h2

theorem find_first_by_id (l : List PexelsVideo) (hnd : (l.map PexelsVideo.id).Nodup) :
    ∀ v ∈ l, l.find? (fun w => w.id == v.id) = some v := by
  induction l with
  | nil => intro v hv; simp at hv
  | cons u rest ih =>
    rw [List.map_cons, List.nodup_cons] at hnd
    intro v hv
    rcases List.mem_cons.mp hv with rfl | hv'
    · rw [List.find?_cons_of_pos _ (by simp)]
    · have hne : (u.id == v.id) = false := by
        apply beq_eq_false_iff_ne.mpr
        intro he
        exact hnd.1 (he ▸ List.mem_map_of_mem PexelsVideo.id hv')
      rw [List.find?_cons_of_neg _ (by simp [hne])]
      exact ih hnd.2 v hv'

theorem dedup_by_id_covers (l : List PexelsVideo) :
    ∀ seen, ∀ v ∈ l, v.id ∉ seen → ∃ w ∈ dedup_by_id l seen, w.id = v.id := by
  induction l with
  | nil => intro seen v hv; simp at hv
  | cons u rest ih =>
    intro seen v hv hvid
    by_cases h : u.id ∈ seen
    · simp only [dedup_by_id, if_pos h]
      rcases List.mem_cons.mp hv with rfl | hv'
      · exact absurd h hvid
      · exact ih seen v hv' hvid
    · simp only [dedup_by_id, if_neg h]
      by_cases he : v.id = u.id
      · exact ⟨u, List.mem_cons_self _ _, he.symm⟩
      · rcases List.mem_cons.mp hv with rfl | hv'
        · exact absurd rfl he
        · obtain ⟨w, hw, hwid⟩ := ih (u.id :: seen) v hv' (by
            intro hmem
            rcases List.mem_cons.mp hmem with h1 | h2
            · exact he h1
            · exact hvid h2)
          exact ⟨w, List.mem_cons_of_mem _ hw, hwid⟩

/-- C8: the deduplication pass over the filtered candidates returns a
subsequence of its input with pairwise-distinct ids, every returned
video is the first occurrence of its id in the input, and every input
id is represented. -/
theorem dedup_first_seen_order (l : List PexelsVideo) :
    (dedup_by_id l []).Sublist l ∧
    ((dedup_by_id l []).map PexelsVideo.id).Nodup ∧
    (∀ v ∈ dedup_by_id l [], l.find? (fun w => w.id == v.id) = some v) ∧
    (∀ v ∈ l, ∃ w ∈ dedup_by_id l [], w.id = v.id) := by
  refine ⟨dedup_by_id_sublist l [], dedup_by_id_nodup_ids l [], ?_, ?_⟩
  · intro v hv
    rw [← dedup_by_id_find_first l [] v.id (by simp)]
    exact find_first_by_id (dedup_by_id l []) (dedup_by_id_nodup_ids l []) v hv
  · intro v hv
    exact dedup_by_id_covers l [] v hv (by simp)

/-- Witness for `dedup_first_seen_order`: in a list whose first and
third entries share id 1, the kept video with id 1 is the first entry,
with its metadata, not the third. -/
theorem dedup_first_seen_order_witness :
    [PexelsVideo.mk 1 100 100 5, PexelsVideo.mk 2 200 200 6,
      PexelsVideo.mk 1 300 300 7].find?
        (fun w => w.id == (PexelsVideo.mk 1 100 100 5).id)
      = some (PexelsVideo.mk 1 100 100 5) :=
  (dedup_first_seen_order
      [PexelsVideo.mk 1 100 100 5, PexelsVideo.mk 2 200 200 6,
        PexelsVideo.mk 1 300 300 7]).2.2.1
    (PexelsVideo.mk 1 100 100 5) (by decide)

/-- Counterexample to C4 as stated: with base range [3,15] and a
long-form target (601 s > 600 s), a 4-second clip is admitted by the
base filter but rejected by the widened filter, whose lower bound
`max 5 (3-5) = 5` is *higher* than the base minimum 3. -/
theorem widened_filter_drops_admitted_clip :
    PexelsVideo.mk 1 1920 1080 4
        ∈ filter_videos_by_duration [PexelsVideo.mk 1 1920 1080 4] 3 15 ∧
    PexelsVideo.mk 1 1920 1080 4
        ∉ duration_filter_for_target [PexelsVideo.mk 1 1920 1080 4] 601 3 15 := by
  refine ⟨?_, ?_⟩ <;>
    decide

/-- C4 (amended): for long-form targets (over 600 s) the widened duration
filter admits every clip the base filter admits, *provided* the base
range respects the widening caps, i.e. `5 ≤ minClipDuration` and
`maxClipDuration ≤ 60`; outside those caps the widened range can exclude
clips the base range admits. -/
theorem widened_filter_superset (videos : List PexelsVideo) (target_duration : ℕ)
    (min_clip_duration max_clip_duration : ℤ)
    (h600 : 600 < target_duration)
    (hmin : 5 ≤ min_clip_duration) (hmax : max_clip_duration ≤ 60)
    (v : PexelsVideo)
    (hv : v ∈ filter_videos_by_duration videos min_clip_duration max_clip_duration) :
    v ∈ duration_filter_for_target videos target_duration
        min_clip_duration max_clip_duration := by
  rw [duration_filter_for_target, if_pos h600, widened_duration_filter]
  rw [filter_videos_by_duration, List.mem_filter] at hv ⊢
  refine ⟨hv.1, ?_⟩
  have hb := hv.2
  simp only [Bool.and_eq_true, decide_eq_true_eq] at hb ⊢
  omega

/-- Witness for `widened_filter_superset`: a 7-second clip admitted by
the base range [5,30] is still admitted for a 900-second target. -/
theorem widened_filter_superset_witness :
    PexelsVideo.mk 3 1920 1080 7
      ∈ duration_filter_for_target [PexelsVideo.mk 3 1920 1080 7] 900 5 30 :=
  widened_filter_superset [PexelsVideo.mk 3 1920 1080 7] 900 5 30
    (by decide) (by decide) (by decide) (PexelsVideo.mk 3 1920 1080 7) (by decide)

/-- Counterexample to C5 as stated: target 11 s, clip-duration range
[2,4] (average 3 s), `max_clips` 10, ten 3-second candidates totalling
30 s ≥ 11 s.  The code computes `int(11/3) + 2 = 5` selected clips, while
the claimed formula `clamp(ceil(11/3) + 2, 5, 10)` gives 6: the source
truncates the quotient rather than taking its ceiling. -/
theorem clip_count_not_ceiling :
    calculate_optimal_clip_count 11 2 4 10 = 5 ∧
    claimed_optimal_clip_count 11 2 4 10 = 6 ∧
    (select_clips ((List.range 10).map fun i => PexelsVideo.mk (i : ℤ) 1920 1080 3)
        (calculate_optimal_clip_count 11 2 4 10)).length = 5 ∧
    (11 : ℤ) ≤ ((((List.range 10).map fun i => PexelsVideo.mk (i : ℤ) 1920 1080 3).map
        PexelsVideo.duration).sum) := by
  have h1 : calculate_optimal_clip_count 11 2 4 10 = 5 := by
    norm_num [calculate_optimal_clip_count]
  have hc : ⌈(11 : ℚ) / 3⌉ = 4 := by
    rw [Int.ceil_eq_iff]
    constructor <;> norm_num
  have h2 : claimed_optimal_clip_count 11 2 4 10 = 6 := by
    norm_num [claimed_optimal_clip_count, hc]
  refine ⟨h1, h2, ?_, by decide⟩
  rw [h1]
  decide

/-- C5 (amended): the selected-clip count equals the optimal count
truncated to the number of available unique clips, where the optimal
count is the code's `min (max (⌊target/avg⌋ + 2) 5) max_clips` (a
truncated, not ceiled, quotient); consequently at least 5 clips are
selected whenever `max_clips ≥ 5` and at least 5 unique clips remain
after filtering.  The hypothesis `0 < min + max` restricts to inputs on
which the source does not raise a division-by-zero error. -/
theorem clip_selection_count (unique_videos : List PexelsVideo)
    (target_duration min_clip_duration max_clip_duration max_clips : ℤ)
    (havg : 0 < min_clip_duration + max_clip_duration)
    (hmc : 5 ≤ max_clips) (hlen : 5 ≤ unique_videos.length) :
    (select_clips unique_videos
        (calculate_optimal_clip_count target_duration min_clip_duration
          max_clip_duration max_clips)).length
      = (min (calculate_optimal_clip_count target_duration min_clip_duration
          max_clip_duration max_clips) (unique_videos.length : ℤ)).toNat ∧
    5 ≤ (select_clips unique_videos
        (calculate_optimal_clip_count target_duration min_clip_duration
          max_clip_duration max_clips)).length := by
  have h5 : 5 ≤ calculate_optimal_clip_count target_duration min_clip_duration
      max_clip_duration max_clips := by
    simp only [calculate_optimal_clip_count]
    omega
  constructor
  · rw [select_clips, List.length_take]
    omega
  · rw [select_clips, List.length_take]
    omega

/-- Witness for `clip_selection_count`: five 3-second candidates, target
10 s, range [2,4], `max_clips = 5` yield five selected clips. -/
theorem clip_selection_count_witness :
    5 ≤ (select_clips ((List.range 5).map fun i => PexelsVideo.mk (i : ℤ) 1 1 3)
        (calculate_optimal_clip_count 10 2 4 5)).length :=
  (clip_selection_count ((List.range 5).map fun i => PexelsVideo.mk (i : ℤ) 1 1 3)
      10 2 4 5 (by norm_num) (by norm_num) (by decide)).2

/-- C2 (code bug): `process_batch` on an empty queue sets `is_running`
(batch_processor.py:49) and then returns the "No jobs to process" error
at lines 60-61 without ever reaching the reset at line 82; the flag
therefore stays set, and a later call — here after a job *has* been
queued — is rejected as "Batch processing already running" even though
no batch is in progress. -/
theorem process_batch_empty_queue_bricks :
    (process_batch (fun _ => true) ⟨[], [], false⟩).2 = BatchResult.noJobs ∧
    (process_batch (fun _ => true) ⟨[], [], false⟩).1.is_running = true ∧
    (process_batch (fun _ => true)
        (add_job "j" (process_batch (fun _ => true) ⟨[], [], false⟩).1)).2
      = BatchResult.alreadyRunning := by
  refine ⟨rfl, rfl, rfl⟩

theorem lookupStatus_setEntry_self (k : String) (v : JobStatus)
    (rs : List (String × JobStatus)) :
    lookupStatus k (setEntry k v rs) = some v := by
  induction rs with
  | nil => simp [setEntry, lookupStatus]
  | cons e rest ih =>
    by_cases h : e.1 = k
    · simp [setEntry, h, lookupStatus]
    · simp only [setEntry, if_neg h, lookupStatus, ih]

theorem lookupStatus_setEntry_ne (k k' : String) (hne : k' ≠ k) (v : JobStatus)
    (rs : List (String × JobStatus)) :
    lookupStatus k' (setEntry k v rs) = lookupStatus k' rs := by
  induction rs with
  | nil =>
    simp only [setEntry, lookupStatus]
    rw [if_neg (fun h => hne h.symm)]
  | cons e rest ih =>
    by_cases h : e.1 = k
    · simp only [setEntry, if_pos h, lookupStatus]
      rw [if_neg (fun hk => hne hk.symm), if_neg (fun hk => hne ((h.symm.trans hk).symm))]
    · simp only [setEntry, if_neg h, lookupStatus, ih]

theorem lookupStatus_foldl_setEntry (f : String → JobStatus) (ids : List String) :
    ∀ (rs : List (String × JobStatus)) (k : String),
      lookupStatus k (ids.foldl (fun r job_id => setEntry job_id (f job_id) r) rs)
        = if k ∈ ids then some (f k) else lookupStatus k rs := by
  induction ids with
  | nil => intro rs k; simp
  | cons a rest ih =>
    intro rs k
    rw [List.foldl_cons, ih]
    by_cases hk : k ∈ rest
    · rw [if_pos hk, if_pos (List.mem_cons_of_mem a hk)]
    · by_cases hka : k = a
      · subst hka
        rw [if_neg hk, if_pos (List.mem_cons_self k rest), lookupStatus_setEntry_self]
      · rw [if_neg hk, if_neg (by simp [hka, hk]), lookupStatus_setEntry_ne a k hka]

theorem lookupStatus_eq_none_of_not_mem_keys (k : String) :
    ∀ rs : List (String × JobStatus), k ∉ rs.map Prod.fst → lookupStatus k rs = none := by
  intro rs
  induction rs with
  | nil => intro _; rfl
  | cons e rest ih =>
    intro h
    rw [List.map_cons, List.mem_cons] at h
    push_neg at h
    rw [lookupStatus, if_neg (fun he => h.1 he.symm)]
    exact ih h.2

theorem lookupStatus_filter_none (p : String × JobStatus → Bool) :
    ∀ (rs : List (String × JobStatus)) (k : String), lookupStatus k rs = none →
      lookupStatus k (rs.filter p) = none := by
  intro rs
  induction rs with
  | nil => intro k _; rfl
  | cons e rest ih =>
    intro k h
    rw [lookupStatus] at h
    by_cases hek : e.1 = k
    · rw [if_pos hek] at h
      exact absurd h (by simp)
    · rw [if_neg hek] at h
      by_cases hp : p e
      · rw [List.filter_cons_of_pos hp, lookupStatus, if_neg hek]
        exact ih k h
      · rw [List.filter_cons_of_neg hp]
        exact ih k h

theorem lookupStatus_filter (p : String × JobStatus → Bool) :
    ∀ (rs : List (String × JobStatus)), (rs.map Prod.fst).Nodup →
      ∀ (k : String) (a : JobStatus), lookupStatus k rs = some a →
        lookupStatus k (rs.filter p) = if p (k, a) then some a else none := by
  intro rs
  induction rs with
  | nil => intro _ k a h; exact absurd h (by simp [lookupStatus])
  | cons e rest ih =>
    intro hnd k a h
    rw [List.map_cons, List.nodup_cons] at hnd
    rw [lookupStatus] at h
    by_cases hek : e.1 = k
    · rw [if_pos hek] at h
      injection h with h2
      have hpair : (k, a) = e := by
        rw [← hek, ← h2]
      by_cases hp : p e
      · rw [List.filter_cons_of_pos hp, lookupStatus, if_pos hek, hpair, if_pos hp, h2]
      · rw [List.filter_cons_of_neg hp, hpair, if_neg hp]
        apply lookupStatus_filter_none
        apply lookupStatus_eq_none_of_not_mem_keys
        rw [← hek]
        exact hnd.1
    · rw [if_neg hek] at h
      have hrec := ih hnd.2 k a h
      by_cases hp : p e
      · rw [List.filter_cons_of_pos hp, lookupStatus, if_neg hek]
        exact hrec
      · rw [List.filter_cons_of_neg hp]
        exact hrec

theorem map_fst_setEntry (k : String) (v : JobStatus) :
    ∀ rs : List (String × JobStatus),
      (setEntry k v rs).map Prod.fst
        = if k ∈ rs.map Prod.fst then rs.map Prod.fst
          else rs.map Prod.fst ++ [k] := by
  intro rs
  induction rs with
  | nil => simp [setEntry]
  | cons e rest ih =>
    by_cases h : e.1 = k
    · simp [setEntry, h, List.mem_cons]
    · simp only [setEntry, if_neg h, List.map_cons, ih]
      by_cases hk : k ∈ rest.map Prod.fst
      · rw [if_pos hk, if_pos (by simp [hk])]
      · rw [if_neg hk]
        rw [if_neg (by
          rw [List.mem_cons]
          push_neg
          exact ⟨fun hke => h hke.symm, hk⟩)]
        rw [List.cons_append]

theorem nodup_keys_setEntry (k : String) (v : JobStatus)
    (rs : List (String × JobStatus)) (h : (rs.map Prod.fst).Nodup) :
    ((setEntry k v rs).map Prod.fst).Nodup := by
  rw [map_fst_setEntry]
  by_cases hk : k ∈ rs.map Prod.fst
  · rw [if_pos hk]
    exact h
  · rw [if_neg hk]
    simp [List.nodup_append, h, hk]

theorem nodup_keys_foldl_setEntry (f : String → JobStatus) (ids : List String) :
    ∀ rs : List (String × JobStatus), (rs.map Prod.fst).Nodup →
      ((ids.foldl (fun r job_id => setEntry job_id (f job_id) r) rs).map Prod.fst).Nodup := by
  induction ids with
  | nil => intro rs h; exact h
  | cons a rest ih =>
    intro rs h
    rw [List.foldl_cons]
    exact ih _ (nodup_keys_setEntry a (f a) rs h)

/-- C9 (amended): over states whose result-store keys are distinct and
whose queued ids all have status `queued` — both preserved by every
operation — any single batch-processor operation that does not reuse an
existing job id for `add_job` moves every stored job status only
forward along queued → processing → {completed, failed}, and removes an
entry only when the operation is `clear_completed_jobs` and the entry
was terminal.  (An `add_job` with an id already present overwrites that
entry with a fresh `queued` job, which is the regression the
counterexample exhibits.) -/
theorem job_status_forward_only (s : BatchState) (op : BatchOp)
    (hkeys : (s.results.map Prod.fst).Nodup)
    (hqueue : ∀ job_id ∈ s.queue, lookupStatus job_id s.results = some JobStatus.queued)
    (hfresh : ∀ job_id, op = BatchOp.add job_id → lookupStatus job_id s.results = none) :
    (((batchStep s op).results.map Prod.fst).Nodup ∧
      ∀ job_id ∈ (batchStep s op).queue,
        lookupStatus job_id (batchStep s op).results = some JobStatus.queued) ∧
    (∀ job_id a b, lookupStatus job_id s.results = some a →
      lookupStatus job_id (batchStep s op).results = some b → statusStep a b) ∧
    (∀ job_id a, lookupStatus job_id s.results = some a →
      lookupStatus job_id (batchStep s op).results = none →
      op = BatchOp.clearCompleted
        ∧ (a = JobStatus.completed ∨ a = JobStatus.failed)) := by
  cases op with
  | add jid =>
    have hf := hfresh jid rfl
    simp only [batchStep, add_job]
    refine ⟨⟨nodup_keys_setEntry jid .queued s.results hkeys, ?_⟩, ?_, ?_⟩
    · intro job_id hmem
      by_cases hji : job_id = jid
      · subst hji
        exact lookupStatus_setEntry_self job_id .queued s.results
      · rw [lookupStatus_setEntry_ne jid job_id hji]
        rcases List.mem_append.mp hmem with hq | hj
        · exact hqueue job_id hq
        · exact absurd (List.mem_singleton.mp hj) hji
    · intro job_id a b ha hb
      by_cases hji : job_id = jid
      · subst hji
        rw [hf] at ha
        exact absurd ha (by simp)
      · rw [lookupStatus_setEntry_ne jid job_id hji, ha] at hb
        injection hb with hb
        exact Or.inl hb
    · intro job_id a ha hnone
      by_cases hji : job_id = jid
      · subst hji
        rw [lookupStatus_setEntry_self] at hnone
        exact absurd hnone (by simp)
      · rw [lookupStatus_setEntry_ne jid job_id hji, ha] at hnone
        exact absurd hnone (by simp)
  | runBatch ok =>
    by_cases hr : s.is_running
    · simp only [batchStep, process_batch, if_pos hr]
      refine ⟨⟨hkeys, hqueue⟩, ?_, ?_⟩
      · intro job_id a b ha hb
        rw [ha] at hb
        injection hb with hb
        exact Or.inl hb
      · intro job_id a ha hnone
        rw [ha] at hnone
        exact absurd hnone (by simp)
    · by_cases hq : s.queue = []
      · simp only [batchStep, process_batch, if_neg hr, if_pos hq]
        refine ⟨⟨hkeys, ?_⟩, ?_, ?_⟩
        · intro job_id hmem
          exact absurd hmem (List.not_mem_nil job_id)
        · intro job_id a b ha hb
          rw [ha] at hb
          injection hb with hb
          exact Or.inl hb
        · intro job_id a ha hnone
          rw [ha] at hnone
          exact absurd hnone (by simp)
      · simp only [batchStep, process_batch, if_neg hr, if_neg hq]
        refine ⟨⟨nodup_keys_foldl_setEntry _ s.queue s.results hkeys, ?_⟩, ?_, ?_⟩
        · intro job_id hmem
          exact absurd hmem (List.not_mem_nil job_id)
        · intro job_id a b ha hb
          rw [lookupStatus_foldl_setEntry] at hb
          by_cases hmem : job_id ∈ s.queue
          · rw [if_pos hmem] at hb
            injection hb with hb
            have haq := hqueue job_id hmem
            rw [ha] at haq
            injection haq with haq
            subst haq
            rw [← hb]
            right
            unfold process_single_job_status
            by_cases hok : ok job_id
            · rw [if_pos hok]
              decide
            · rw [if_neg hok]
              decide
          · rw [if_neg hmem, ha] at hb
            injection hb with hb
            exact Or.inl hb
        · intro job_id a ha hnone
          rw [lookupStatus_foldl_setEntry] at hnone
          by_cases hmem : job_id ∈ s.queue
          · rw [if_pos hmem] at hnone
            exact absurd hnone (by simp)
          · rw [if_neg hmem, ha] at hnone
            exact absurd hnone (by simp)
  | clearCompleted =>
    simp only [batchStep, clear_completed_jobs]
    refine ⟨⟨?_, ?_⟩, ?_, ?_⟩
    · exact ((List.filter_sublist s.results).map Prod.fst).nodup hkeys
    · intro job_id hmem
      have hjq := hqueue job_id hmem
      rw [lookupStatus_filter _ s.results hkeys job_id JobStatus.queued hjq]
      simp
    · intro job_id a b ha hb
      rw [lookupStatus_filter _ s.results hkeys job_id a ha] at hb
      by_cases hp : (!(decide (a = JobStatus.completed) || decide (a = JobStatus.failed))) = true
      · rw [if_pos hp] at hb
        injection hb with hb
        exact Or.inl hb
      · rw [if_neg hp] at hb
        exact absurd hb (by simp)
    · intro job_id a ha hnone
      rw [lookupStatus_filter _ s.results hkeys job_id a ha] at hnone
      refine ⟨trivial, ?_⟩
      by_cases hc : a = JobStatus.completed
      · exact Or.inl hc
      · by_cases hfl : a = JobStatus.failed
        · exact Or.inr hfl
        · rw [if_pos (by simp [hc, hfl])] at hnone
          exact absurd hnone (by simp)

/-- Witness for `job_status_forward_only`: running the batch over a
single queued job "a" moves it from queued to completed — a forward
step. -/
theorem job_status_forward_only_witness :
    statusStep JobStatus.queued JobStatus.completed :=
  (job_status_forward_only ⟨["a"], [("a", JobStatus.queued)], false⟩
      (BatchOp.runBatch fun _ => true) (by decide) (by decide)
      (fun job_id h => BatchOp.noConfusion h)).2.1
    "a" JobStatus.queued JobStatus.completed (by decide) (by decide)

/-- Counterexample to C9 as stated: `add_job` with an id already present
in the result store overwrites the stored entry with a fresh `queued`
job (batch_processor.py:42).  After queueing and completing job "j", a
second `add_job "j"` moves the stored status from `completed` back to
`queued` — a backward transition. -/
theorem duplicate_add_job_regresses_status :
    lookupStatus "j" (batchStep (batchStep (batchStep ⟨[], [], false⟩
        (BatchOp.add "j")) (BatchOp.runBatch fun _ => true)) (BatchOp.add "j")).results
      = some JobStatus.queued ∧
    lookupStatus "j" (batchStep (batchStep ⟨[], [], false⟩
        (BatchOp.add "j")) (BatchOp.runBatch fun _ => true)).results
      = some JobStatus.completed ∧
    ¬ statusStep JobStatus.completed JobStatus.queued := by
  refine ⟨rfl, rfl, ?_⟩
  rintro (h | h)
  · exact JobStatus.noConfusion h
  · simp [statusRank] at h

/-- C10: with a "vertical" aspect preference the resolution swap is
unconditional — it swaps width and height of every target resolution,
already-portrait or not — so the presets that store a portrait
resolution together with a vertical preference (`social_media`
1080x1920, `mobile` 720x1280) make `process_with_preset` normalize
every clip to the corresponding landscape resolution. -/
theorem vertical_preset_resolution_swap :
    (∀ r : Resolution,
      flip_resolution_for_vertical r "vertical" = Resolution.mk r.height r.width) ∧
    process_with_preset_resolution "social_media" = Resolution.mk 1920 1080 ∧
    process_with_preset_resolution "mobile" = Resolution.mk 1280 720 := by
  refine ⟨?_, by decide, by decide⟩
  intro r
  rw [flip_resolution_for_vertical, if_pos rfl]
